import Mathlib

/-!
# Verification of the peer2peer-cache core data structures

Shallow embedding of the repository's Go code:

* `ConsistentHash` — `consistenthash/consistenthash.go` (the `Map` hash ring)
* `Lru`            — the LRU cache package (`LruCache`)
* `P2p`            — `byteview.go` and the `Sink` family (`sinks` file)

Go machine integers are modelled as `Nat`/`Int` (hash values are `uint32`
cast to `int`, hence non-negative: `Nat`); Go byte slices and strings are
`List Nat` at the byte level where byte content matters, and Lean `String`
where the Go code treats strings as opaque hash inputs; a Go pointer that
may be `nil` is an `Option`; a Go `nil` slice inside `ByteView` is
`Option` as well, since the code branches on `v.b != nil`.  Operations
that can panic return an explicit `crash` outcome.
-/

namespace ConsistentHash

/-- The Go standard library `sort.Search(n, f)` loop:
`i, j := 0, n; for i < j { h := (i+j)/2; if !f(h) { i = h+1 } else { j = h } }; return i`.
The loop shrinks `j - i` by at least one per iteration, so running it on
explicit fuel `≥ j - i` (structural recursion, hence kernel-reducible)
computes exactly the loop's result; `sortSearch` supplies fuel `n`. -/
def searchLoop (f : Nat → Bool) : Nat → Nat → Nat → Nat
  | 0, i, _j => i
  | fuel + 1, i, j =>
    if i < j then
      if f ((i + j) / 2) then searchLoop f fuel i ((i + j) / 2)
      else searchLoop f fuel ((i + j) / 2 + 1) j
    else i

/-- `sort.Search(n, f)`. -/
def sortSearch (n : Nat) (f : Nat → Bool) : Nat := searchLoop f n 0 n

/-- Characterisation of the binary-search loop on a predicate that is
monotone below `j`: it returns the least index at which `f` holds
(or `j` when there is none), within `[i, j]`. -/
theorem searchLoop_spec (f : Nat → Bool) (fuel : Nat) :
    ∀ i j, j - i ≤ fuel → i ≤ j →
    (∀ a b, a ≤ b → b < j → f a = true → f b = true) →
    i ≤ searchLoop f fuel i j ∧ searchLoop f fuel i j ≤ j ∧
      (∀ k, i ≤ k → k < searchLoop f fuel i j → f k = false) ∧
      (searchLoop f fuel i j < j → f (searchLoop f fuel i j) = true) := by
  induction fuel with
  | zero =>
    intro i j hn hij _
    have hji : i = j := by omega
    subst hji
    simp only [searchLoop]
    exact ⟨le_refl _, le_refl _, fun k hk hk2 => absurd hk2 (by omega),
      fun h => absurd h (by omega)⟩
  | succ n ih =>
    intro i j hn hij hmono
    by_cases hlt : i < j
    · have hmlt : (i + j) / 2 < j := Nat.div_lt_of_lt_mul (by omega)
      have hmge : i ≤ (i + j) / 2 := Nat.le_div_iff_mul_le (by omega) |>.mpr (by omega)
      by_cases hf : f ((i + j) / 2) = true
      · have heq : searchLoop f (n + 1) i j = searchLoop f n i ((i + j) / 2) := by
          simp only [searchLoop, if_pos hlt, if_pos hf]
        rw [heq]
        have := ih i ((i + j) / 2) (by omega) hmge
          (fun a b hab hb ha => hmono a b hab (by omega) ha)
        refine ⟨this.1, by omega, this.2.2.1, ?_⟩
        intro _
        rcases Nat.lt_or_ge (searchLoop f n i ((i + j) / 2)) ((i + j) / 2) with h | h
        · exact this.2.2.2 h
        · have h2 : searchLoop f n i ((i + j) / 2) = (i + j) / 2 := by
            have := this.2.1
            omega
          rw [h2]; exact hf
      · have heq : searchLoop f (n + 1) i j = searchLoop f n ((i + j) / 2 + 1) j := by
          simp only [searchLoop, if_pos hlt, if_neg hf]
        rw [heq]
        have := ih ((i + j) / 2 + 1) j (by omega) (by omega) hmono
        refine ⟨by omega, this.2.1, ?_, this.2.2.2⟩
        intro k hk hk2
        rcases Nat.lt_or_ge k ((i + j) / 2 + 1) with h | h
        · by_contra hfk
          have hfk' : f k = true := by
            cases hfk2 : f k with
            | true => rfl
            | false => exact absurd hfk2 hfk
          exact hf (hmono k ((i + j) / 2) (by omega) (by omega) hfk')
        · exact this.2.2.1 k h hk2
    · have heq : searchLoop f (n + 1) i j = i := by
        simp only [searchLoop, if_neg hlt]
      rw [heq]
      exact ⟨le_refl _, by omega, fun k hk hk2 => absurd hk2 (by omega),
        fun h => absurd h (by omega)⟩

/-- `Hash` is `func(data []byte) uint32`; we model hash values as `Nat`
(the Go code casts them to non-negative `int`s) and the byte-slice
argument as the `String` it is always built from. -/
abbrev Hash := String → Nat

/-- Go map assignment `mp[k] = v` on a `map[int]string`, modelled
functionally; a missing key reads as `none` (Go's zero value `""` is
re-introduced at the lookup site with `getD`). -/
def mapInsert (mp : Nat → Option String) (k : Nat) (v : String) : Nat → Option String :=
  fun q => if q = k then some v else mp q

/-- The `Map` struct of `consistenthash.go`. -/
structure Map where
  hash : Hash
  replicas : Int
  keys : List Nat
  hashMap : Nat → Option String

/-- `New(replicas, hashFn)`.  The Go code substitutes `crc32.ChecksumIEEE`
for a `nil` hash function; we model the hash function as always given
(the default is just one particular `Hash`). -/
def New (replicas : Int) (hashFn : Hash) : Map :=
  { hash := hashFn, replicas := replicas, keys := [], hashMap := fun _ => none }

/-- The body of `Add`'s inner loop for one key: for `i` in
`0 ..< replicas`, append `hash(itoa(i) + key)` to `keys` and record
`hashMap[hash] = key`.  (A Go `for i := 0; i < replicas; i++` loop with
`replicas ≤ 0` runs zero times, hence `Int.toNat`.) -/
def addReplica (key : String) (acc : Map) (i : Nat) : Map :=
  let h := acc.hash (toString i ++ key)
  { acc with keys := acc.keys ++ [h], hashMap := mapInsert acc.hashMap h key }

def addKey (m : Map) (key : String) : Map :=
  (List.range m.replicas.toNat).foldl (addReplica key) m

/-- `Add(keys ...string)`: hash every replica of every key, then
`sort.Ints(m.keys)`.  `sort.Ints` sorts ascending; the sorted
rearrangement of a list of `Nat`s is unique, so any correct sorting
algorithm is an exact model — we use insertion sort. -/
def Map.Add (m : Map) (ks : List String) : Map :=
  let m' := ks.foldl addKey m
  { m' with keys := m'.keys.insertionSort (· ≤ ·) }

/-- `IsEmpty()`. -/
def Map.IsEmpty (m : Map) : Bool := m.keys.isEmpty

/-- `Get(key)`: empty ring yields `""`; otherwise binary-search the first
stored hash `≥ hash(key)`, wrapping to index 0, and look the hash up in
`hashMap` (a missing entry reads as Go's zero value `""`). -/
def Map.Get (m : Map) (key : String) : String :=
  if m.IsEmpty then ""
  else
    let h := m.hash key
    let idx := sortSearch m.keys.length (fun i => decide (m.keys.getD i 0 ≥ h))
    let idx' := if idx = m.keys.length then 0 else idx
    (m.hashMap (m.keys.getD idx' 0)).getD ""

/-- Elements of a `(· ≤ ·)`-sorted list are monotone in the index. -/
theorem sorted_getElem_le {l : List Nat} (hs : l.Sorted (· ≤ ·))
    {a b : Nat} (ha : a < l.length) (hb : b < l.length) (hab : a ≤ b) :
    l[a] ≤ l[b] := by
  rcases Nat.lt_or_ge a b with h | h
  · exact List.pairwise_iff_get.mp hs ⟨a, ha⟩ ⟨b, hb⟩ h
  · have : a = b := by omega
    subst this
    exact le_refl _

/-- What `Get` computes on a sorted, non-empty ring: it looks up the
smallest stored hash `≥ hash(key)` in `hashMap`, or the smallest stored
hash of all when every stored hash is below `hash(key)`. -/
theorem get_spec (m : Map) (key : String)
    (hsort : m.keys.Sorted (· ≤ ·)) (hne : m.keys ≠ []) :
    ∃ k₀ ∈ m.keys, m.Get key = (m.hashMap k₀).getD "" ∧
      ((∃ k ∈ m.keys, m.hash key ≤ k) →
        m.hash key ≤ k₀ ∧ ∀ k ∈ m.keys, m.hash key ≤ k → k₀ ≤ k) ∧
      ((∀ k ∈ m.keys, k < m.hash key) → ∀ k ∈ m.keys, k₀ ≤ k) := by
  have hemp : m.IsEmpty = false := by
    simp [Map.IsEmpty, List.isEmpty_iff, hne]
  have hn : 0 < m.keys.length := List.length_pos.mpr hne
  set h := m.hash key with hh
  set f : Nat → Bool := fun i => decide (m.keys.getD i 0 ≥ h) with hf
  have hmono : ∀ a b, a ≤ b → b < m.keys.length → f a = true → f b = true := by
    intro a b hab hb hfa
    have ha : a < m.keys.length := by omega
    have h1 : m.keys.getD a 0 = m.keys[a] := List.getD_eq_getElem _ _ ha
    have h2 : m.keys.getD b 0 = m.keys[b] := List.getD_eq_getElem _ _ hb
    simp only [hf, h1, h2, decide_eq_true_eq] at hfa ⊢
    exact le_trans hfa (sorted_getElem_le hsort ha hb hab)
  have hspec := searchLoop_spec f m.keys.length 0 m.keys.length (by omega) (by omega) hmono
  set r := searchLoop f m.keys.length 0 m.keys.length with hr
  have hget : m.Get key =
      (m.hashMap (m.keys.getD (if r = m.keys.length then 0 else r) 0)).getD "" := by
    rw [Map.Get, hemp]
    rfl
  rcases Nat.lt_or_ge r m.keys.length with hrlt | hrge
  · -- some stored hash is ≥ h; `r` is the least index of one
    have hne' : ¬(r = m.keys.length) := by omega
    have hk₀ : m.keys.getD r 0 = m.keys[r] := List.getD_eq_getElem _ _ hrlt
    have hfr : h ≤ m.keys[r] := by
      have h1 := hspec.2.2.2 hrlt
      simp only [hf, decide_eq_true_eq, ge_iff_le] at h1
      rwa [hk₀] at h1
    refine ⟨m.keys[r], List.getElem_mem hrlt, ?_, ?_, ?_⟩
    · rw [hget, if_neg hne', hk₀]
    · intro _
      refine ⟨hfr, ?_⟩
      intro k hk hhk
      obtain ⟨idx, hidx, hkeq⟩ := List.getElem_of_mem hk
      rcases Nat.lt_or_ge idx r with hir | hir
      · have hfi := hspec.2.2.1 idx (by omega) hir
        have hgd : m.keys.getD idx 0 = m.keys[idx] := List.getD_eq_getElem _ _ hidx
        simp only [hf, decide_eq_false_iff_not, ge_iff_le, hgd] at hfi
        rw [hkeq] at hfi
        omega
      · rw [← hkeq]
        exact sorted_getElem_le hsort hrlt hidx hir
    · intro hall
      intro k hk
      exact absurd hfr (by have := hall m.keys[r] (List.getElem_mem hrlt); omega)
  · -- every stored hash is < h; wrap to index 0
    have hreq : r = m.keys.length := by
      have := hspec.2.1
      omega
    have hk₀ : m.keys.getD 0 0 = m.keys[0] := List.getD_eq_getElem _ _ hn
    refine ⟨m.keys[0], List.getElem_mem hn, ?_, ?_, ?_⟩
    · rw [hget, if_pos hreq, hk₀]
    · intro ⟨k, hk, hhk⟩
      obtain ⟨idx, hidx, hkeq⟩ := List.getElem_of_mem hk
      have hfi := hspec.2.2.1 idx (by omega) (by omega)
      have hgd : m.keys.getD idx 0 = m.keys[idx] := List.getD_eq_getElem _ _ hidx
      simp only [hf, decide_eq_false_iff_not, ge_iff_le, hgd] at hfi
      rw [hkeq] at hfi
      omega
    · intro _ k hk
      obtain ⟨idx, hidx, hkeq⟩ := List.getElem_of_mem hk
      rw [← hkeq]
      exact sorted_getElem_le hsort hn hidx (by omega)

/-- A sequence of `Add` calls starting from `New`, i.e. the ways a ring
can be populated. -/
def buildRing (replicas : Int) (hashFn : Hash) (calls : List (List String)) : Map :=
  calls.foldl Map.Add (New replicas hashFn)

/-- Every stored hash has a `hashMap` entry. -/
def Covered (m : Map) : Prop := ∀ k ∈ m.keys, (m.hashMap k).isSome

theorem foldl_addReplica_hash (key : String) :
    ∀ (l : List Nat) (m : Map), (l.foldl (addReplica key) m).hash = m.hash := by
  intro l
  induction l with
  | nil => intro m; rfl
  | cons a l ih => intro m; exact ih (addReplica key m a)

theorem foldl_addReplica_replicas (key : String) :
    ∀ (l : List Nat) (m : Map), (l.foldl (addReplica key) m).replicas = m.replicas := by
  intro l
  induction l with
  | nil => intro m; rfl
  | cons a l ih => intro m; exact ih (addReplica key m a)

theorem foldl_addReplica_keys (key : String) :
    ∀ (l : List Nat) (m : Map),
      (l.foldl (addReplica key) m).keys =
        m.keys ++ l.map (fun i => m.hash (toString i ++ key)) := by
  intro l
  induction l with
  | nil => intro m; simp
  | cons a l ih =>
    intro m
    rw [List.foldl_cons, ih (addReplica key m a)]
    simp [addReplica]

theorem foldl_addReplica_hashMap (key : String) :
    ∀ (l : List Nat) (m : Map) (k : Nat),
      (l.foldl (addReplica key) m).hashMap k =
        if k ∈ l.map (fun i => m.hash (toString i ++ key)) then some key
        else m.hashMap k := by
  intro l
  induction l with
  | nil => intro m k; simp
  | cons a l ih =>
    intro m k
    rw [List.foldl_cons, ih (addReplica key m a)]
    simp only [addReplica, List.map_cons, List.mem_cons]
    by_cases hmem : k ∈ l.map (fun i => m.hash (toString i ++ key))
    · rw [if_pos hmem, if_pos (Or.inr hmem)]
    · rw [if_neg hmem]
      by_cases heq : k = m.hash (toString a ++ key)
      · rw [if_pos (Or.inl heq)]
        simp [mapInsert, heq]
      · rw [if_neg (by tauto)]
        simp [mapInsert, heq]

theorem addKey_hash (m : Map) (p : String) : (addKey m p).hash = m.hash :=
  foldl_addReplica_hash p _ m

theorem addKey_replicas (m : Map) (p : String) : (addKey m p).replicas = m.replicas :=
  foldl_addReplica_replicas p _ m

theorem addKey_keys (m : Map) (p : String) :
    (addKey m p).keys =
      m.keys ++ (List.range m.replicas.toNat).map (fun i => m.hash (toString i ++ p)) :=
  foldl_addReplica_keys p _ m

theorem addKey_hashMap (m : Map) (p : String) (k : Nat) :
    (addKey m p).hashMap k =
      if k ∈ (List.range m.replicas.toNat).map (fun i => m.hash (toString i ++ p))
      then some p else m.hashMap k :=
  foldl_addReplica_hashMap p _ m k

theorem foldl_addKey_hash :
    ∀ (ks : List String) (m : Map), (ks.foldl addKey m).hash = m.hash := by
  intro ks
  induction ks with
  | nil => intro m; rfl
  | cons p ks ih =>
    intro m
    rw [List.foldl_cons, ih (addKey m p), addKey_hash]

theorem foldl_addKey_replicas :
    ∀ (ks : List String) (m : Map), (ks.foldl addKey m).replicas = m.replicas := by
  intro ks
  induction ks with
  | nil => intro m; rfl
  | cons p ks ih =>
    intro m
    rw [List.foldl_cons, ih (addKey m p), addKey_replicas]

theorem foldl_addKey_keys_mem :
    ∀ (ks : List String) (m : Map) (k : Nat),
      (k ∈ (ks.foldl addKey m).keys ↔
        k ∈ m.keys ∨ ∃ p ∈ ks, ∃ i < m.replicas.toNat, m.hash (toString i ++ p) = k) := by
  intro ks
  induction ks with
  | nil => intro m k; simp
  | cons p ks ih =>
    intro m k
    rw [List.foldl_cons, ih (addKey m p)]
    rw [addKey_keys, addKey_hash, addKey_replicas]
    simp only [List.mem_append, List.mem_map, List.mem_range, List.mem_cons]
    constructor
    · rintro ((h | ⟨i, hi, hik⟩) | ⟨q, hq, i, hi, hik⟩)
      · exact Or.inl h
      · exact Or.inr ⟨p, Or.inl rfl, i, hi, hik⟩
      · exact Or.inr ⟨q, Or.inr hq, i, hi, hik⟩
    · rintro (h | ⟨q, (rfl | hq), i, hi, hik⟩)
      · exact Or.inl (Or.inl h)
      · exact Or.inl (Or.inr ⟨i, hi, hik⟩)
      · exact Or.inr ⟨q, hq, i, hi, hik⟩

theorem foldl_addKey_hashMap_some :
    ∀ (ks : List String) (m : Map) (k : Nat) (p : String),
      (ks.foldl addKey m).hashMap k = some p →
      m.hashMap k = some p ∨
        (p ∈ ks ∧ ∃ i < m.replicas.toNat, m.hash (toString i ++ p) = k) := by
  intro ks
  induction ks with
  | nil => intro m k p h; exact Or.inl h
  | cons q ks ih =>
    intro m k p h
    rw [List.foldl_cons] at h
    rcases ih (addKey m q) k p h with h1 | ⟨hp, i, hi, hik⟩
    · rw [addKey_hashMap] at h1
      by_cases hmem : k ∈ (List.range m.replicas.toNat).map
          (fun i => m.hash (toString i ++ q))
      · rw [if_pos hmem] at h1
        obtain ⟨i, hi, hik⟩ := List.mem_map.mp hmem
        have hqp : q = p := Option.some_inj.mp h1
        subst hqp
        exact Or.inr ⟨List.mem_cons_self q ks, i, List.mem_range.mp hi, hik⟩
      · rw [if_neg hmem] at h1
        exact Or.inl h1
    · rw [addKey_replicas, addKey_hash] at *
      exact Or.inr ⟨List.mem_cons_of_mem q hp, i, hi, hik⟩

theorem covered_addKey (m : Map) (p : String) (h : Covered m) : Covered (addKey m p) := by
  intro k hk
  rw [addKey_keys] at hk
  rw [addKey_hashMap]
  rcases List.mem_append.mp hk with h1 | h1
  · by_cases hmem : k ∈ (List.range m.replicas.toNat).map (fun i => m.hash (toString i ++ p))
    · rw [if_pos hmem]; rfl
    · rw [if_neg hmem]; exact h k h1
  · rw [if_pos h1]; rfl

theorem covered_foldl_addKey :
    ∀ (ks : List String) (m : Map), Covered m → Covered (ks.foldl addKey m) := by
  intro ks
  induction ks with
  | nil => intro m h; exact h
  | cons p ks ih => intro m h; exact ih (addKey m p) (covered_addKey m p h)

theorem Add_hash (m : Map) (ks : List String) : (m.Add ks).hash = m.hash :=
  foldl_addKey_hash ks m

theorem Add_replicas (m : Map) (ks : List String) : (m.Add ks).replicas = m.replicas :=
  foldl_addKey_replicas ks m

theorem Add_hashMap (m : Map) (ks : List String) :
    (m.Add ks).hashMap = (ks.foldl addKey m).hashMap := rfl

theorem Add_keys_sorted (m : Map) (ks : List String) :
    (m.Add ks).keys.Sorted (· ≤ ·) :=
  List.sorted_insertionSort _ _

theorem Add_keys_mem (m : Map) (ks : List String) (k : Nat) :
    k ∈ (m.Add ks).keys ↔
      k ∈ m.keys ∨ ∃ p ∈ ks, ∃ i < m.replicas.toNat, m.hash (toString i ++ p) = k := by
  have hperm : (m.Add ks).keys.Perm (ks.foldl addKey m).keys :=
    List.perm_insertionSort _ _
  rw [hperm.mem_iff]
  exact foldl_addKey_keys_mem ks m k

theorem covered_Add (m : Map) (ks : List String) (h : Covered m) : Covered (m.Add ks) := by
  intro k hk
  rw [Add_hashMap]
  have hperm : (m.Add ks).keys.Perm (ks.foldl addKey m).keys :=
    List.perm_insertionSort _ _
  exact covered_foldl_addKey ks m h k (hperm.mem_iff.mp hk)

theorem foldl_Add_hash :
    ∀ (calls : List (List String)) (m : Map), (calls.foldl Map.Add m).hash = m.hash := by
  intro calls
  induction calls with
  | nil => intro m; rfl
  | cons ks calls ih =>
    intro m
    rw [List.foldl_cons, ih (m.Add ks), Add_hash]

theorem foldl_Add_replicas :
    ∀ (calls : List (List String)) (m : Map),
      (calls.foldl Map.Add m).replicas = m.replicas := by
  intro calls
  induction calls with
  | nil => intro m; rfl
  | cons ks calls ih =>
    intro m
    rw [List.foldl_cons, ih (m.Add ks), Add_replicas]

theorem foldl_Add_keys_mem :
    ∀ (calls : List (List String)) (m : Map) (k : Nat),
      (k ∈ (calls.foldl Map.Add m).keys ↔
        k ∈ m.keys ∨
          ∃ p ∈ calls.flatten, ∃ i < m.replicas.toNat, m.hash (toString i ++ p) = k) := by
  intro calls
  induction calls with
  | nil => intro m k; simp
  | cons ks calls ih =>
    intro m k
    rw [List.foldl_cons, ih (m.Add ks), Add_keys_mem, Add_replicas, Add_hash]
    simp only [List.flatten_cons, List.mem_append]
    constructor
    · rintro ((h | ⟨p, hp, i, hi, hik⟩) | ⟨p, hp, i, hi, hik⟩)
      · exact Or.inl h
      · exact Or.inr ⟨p, Or.inl hp, i, hi, hik⟩
      · exact Or.inr ⟨p, Or.inr hp, i, hi, hik⟩
    · rintro (h | ⟨p, (hp | hp), i, hi, hik⟩)
      · exact Or.inl (Or.inl h)
      · exact Or.inl (Or.inr ⟨p, hp, i, hi, hik⟩)
      · exact Or.inr ⟨p, hp, i, hi, hik⟩

theorem foldl_Add_hashMap_some :
    ∀ (calls : List (List String)) (m : Map) (k : Nat) (p : String),
      (calls.foldl Map.Add m).hashMap k = some p →
      m.hashMap k = some p ∨
        (p ∈ calls.flatten ∧ ∃ i < m.replicas.toNat, m.hash (toString i ++ p) = k) := by
  intro calls
  induction calls with
  | nil => intro m k p h; exact Or.inl h
  | cons ks calls ih =>
    intro m k p h
    rw [List.foldl_cons] at h
    rcases ih (m.Add ks) k p h with h1 | ⟨hp, i, hi, hik⟩
    · rw [Add_hashMap] at h1
      rcases foldl_addKey_hashMap_some ks m k p h1 with h2 | ⟨hp, i, hi, hik⟩
      · exact Or.inl h2
      · exact Or.inr ⟨by simp only [List.flatten_cons, List.mem_append]; exact Or.inl hp,
          i, hi, hik⟩
    · rw [Add_replicas] at hi
      rw [Add_hash] at hik
      exact Or.inr ⟨by simp only [List.flatten_cons, List.mem_append]; exact Or.inr hp,
        i, hi, hik⟩

theorem covered_foldl_Add :
    ∀ (calls : List (List String)) (m : Map), Covered m → Covered (calls.foldl Map.Add m) := by
  intro calls
  induction calls with
  | nil => intro m h; exact h
  | cons ks calls ih => intro m h; exact ih (m.Add ks) (covered_Add m ks h)

theorem buildRing_hash (r : Int) (f : Hash) (calls : List (List String)) :
    (buildRing r f calls).hash = f :=
  foldl_Add_hash calls (New r f)

theorem buildRing_replicas (r : Int) (f : Hash) (calls : List (List String)) :
    (buildRing r f calls).replicas = r :=
  foldl_Add_replicas calls (New r f)

theorem buildRing_keys_mem (r : Int) (f : Hash) (calls : List (List String)) (k : Nat) :
    k ∈ (buildRing r f calls).keys ↔
      ∃ p ∈ calls.flatten, ∃ i < r.toNat, f (toString i ++ p) = k := by
  rw [buildRing, foldl_Add_keys_mem]
  simp [New]

theorem buildRing_hashMap_some (r : Int) (f : Hash) (calls : List (List String))
    (k : Nat) (p : String) (h : (buildRing r f calls).hashMap k = some p) :
    p ∈ calls.flatten ∧ ∃ i < r.toNat, f (toString i ++ p) = k := by
  rcases foldl_Add_hashMap_some calls (New r f) k p h with h1 | h1
  · exact absurd h1 (by simp [New])
  · exact h1

theorem covered_buildRing (r : Int) (f : Hash) (calls : List (List String)) :
    Covered (buildRing r f calls) :=
  covered_foldl_Add calls (New r f) (by intro k hk; exact absurd hk (by simp [New]))

theorem buildRing_sorted (r : Int) (f : Hash) (calls : List (List String)) :
    (buildRing r f calls).keys.Sorted (· ≤ ·) := by
  rw [buildRing]
  rcases calls.eq_nil_or_concat with rfl | ⟨cs, ks, rfl⟩
  · simp [New]
  · rw [List.concat_eq_append, List.foldl_append, List.foldl_cons, List.foldl_nil]
    exact Add_keys_sorted _ _

/-- Concrete hash function for witnesses: base-256 value of the byte string. -/
def demoHash : Hash := fun s => s.data.foldl (fun a c => 256 * a + c.toNat) 0

/-- A hash function with total collision, used to exhibit non-determinism. -/
def constHash : Hash := fun _ => 0

/-- C1: on every non-empty ring (any ring whose population ended with an
`Add`, which sorts the keys), `Get key` returns the `hashMap` entry of the
smallest stored virtual-node hash `≥ hash(key)` when one exists, and of
the smallest stored hash (circular wrap-around) when `hash(key)` exceeds
every stored hash. -/
theorem ring_get_successor (m₀ : Map) (ks : List String) (key : String)
    (hne : (m₀.Add ks).keys ≠ []) :
    ∃ k₀ ∈ (m₀.Add ks).keys,
      (m₀.Add ks).Get key = ((m₀.Add ks).hashMap k₀).getD "" ∧
      ((∃ k ∈ (m₀.Add ks).keys, (m₀.Add ks).hash key ≤ k) →
        (m₀.Add ks).hash key ≤ k₀ ∧
          ∀ k ∈ (m₀.Add ks).keys, (m₀.Add ks).hash key ≤ k → k₀ ≤ k) ∧
      ((∀ k ∈ (m₀.Add ks).keys, k < (m₀.Add ks).hash key) →
        ∀ k ∈ (m₀.Add ks).keys, k₀ ≤ k) :=
  get_spec _ key (Add_keys_sorted m₀ ks) hne

/-- Ring used by concrete witnesses: two peers, two replicas each. -/
def demoRing : Map := (New 2 demoHash).Add ["A", "B"]

/-- Witness for `ring_get_successor` at a concrete ring and key. -/
theorem ring_get_successor_witness :
    ∃ k₀ ∈ demoRing.keys,
      demoRing.Get "x" = (demoRing.hashMap k₀).getD "" ∧
      ((∃ k ∈ demoRing.keys, demoRing.hash "x" ≤ k) →
        demoRing.hash "x" ≤ k₀ ∧
          ∀ k ∈ demoRing.keys, demoRing.hash "x" ≤ k → k₀ ≤ k) ∧
      ((∀ k ∈ demoRing.keys, k < demoRing.hash "x") →
        ∀ k ∈ demoRing.keys, k₀ ≤ k) :=
  ring_get_successor (New 2 demoHash) ["A", "B"] "x" (by decide)

/-- C9: `Get` on a ring with no peers returns the empty string. -/
theorem ring_get_empty (m : Map) (key : String) (h : m.IsEmpty = true) :
    m.Get key = "" := by
  rw [Map.Get, if_pos h]

/-- Witness for `ring_get_empty` on a freshly constructed ring. -/
theorem ring_get_empty_witness :
    (New 3 demoHash).IsEmpty = true ∧ (New 3 demoHash).Get "anything" = "" :=
  ⟨rfl, ring_get_empty (New 3 demoHash) "anything" rfl⟩

/-- Counterexample to C3 as stated: two rings with the same replica count,
the same (collision-heavy) hash function and the same peer set `{A, B}`,
populated in different orders, route the same key to different peers. -/
theorem ring_determinism_cex :
    [["A"], ["B"]].flatten.toFinset = [["B", "A"]].flatten.toFinset ∧
    (buildRing 1 constHash [["A"], ["B"]]).Get "k" = "B" ∧
    (buildRing 1 constHash [["B", "A"]]).Get "k" = "A" ∧
    (buildRing 1 constHash [["A"], ["B"]]).Get "k" ≠
      (buildRing 1 constHash [["B", "A"]]).Get "k" := by
  decide

/-- C3 amended: two rings with the same replica count and hash function,
populated via any sequences of `Add` calls covering the same set of peer
identifiers, agree on `Get` for every key — provided no two *distinct*
peers have colliding virtual-node hashes (collisions among the virtual
nodes of one peer are harmless). -/
theorem ring_determinism (r : Int) (hashFn : Hash)
    (calls₁ calls₂ : List (List String)) (key : String)
    (hmem : calls₁.flatten.toFinset = calls₂.flatten.toFinset)
    (hcoll : ∀ p ∈ calls₁.flatten, ∀ q ∈ calls₁.flatten, ∀ i < r.toNat, ∀ j < r.toNat,
      hashFn (toString i ++ p) = hashFn (toString j ++ q) → p = q) :
    (buildRing r hashFn calls₁).Get key = (buildRing r hashFn calls₂).Get key := by
  have hmem' : ∀ p : String, p ∈ calls₁.flatten ↔ p ∈ calls₂.flatten := by
    intro p
    rw [← List.mem_toFinset, hmem, List.mem_toFinset]
  have hkeysiff : ∀ k, k ∈ (buildRing r hashFn calls₁).keys ↔
      k ∈ (buildRing r hashFn calls₂).keys := by
    intro k
    rw [buildRing_keys_mem, buildRing_keys_mem]
    constructor
    · rintro ⟨p, hp, i, hi, hik⟩
      exact ⟨p, (hmem' p).mp hp, i, hi, hik⟩
    · rintro ⟨p, hp, i, hi, hik⟩
      exact ⟨p, (hmem' p).mpr hp, i, hi, hik⟩
  by_cases h1 : (buildRing r hashFn calls₁).keys = []
  · have h2 : (buildRing r hashFn calls₂).keys = [] := by
      rw [List.eq_nil_iff_forall_not_mem]
      intro k hk
      rw [List.eq_nil_iff_forall_not_mem] at h1
      exact h1 k ((hkeysiff k).mpr hk)
    have e1 : (buildRing r hashFn calls₁).Get key = "" := by
      rw [Map.Get, if_pos (by simp [Map.IsEmpty, h1])]
    have e2 : (buildRing r hashFn calls₂).Get key = "" := by
      rw [Map.Get, if_pos (by simp [Map.IsEmpty, h2])]
    rw [e1, e2]
  · have h2 : (buildRing r hashFn calls₂).keys ≠ [] := by
      intro hnil
      apply h1
      rw [List.eq_nil_iff_forall_not_mem]
      intro k hk
      rw [List.eq_nil_iff_forall_not_mem] at hnil
      exact hnil k ((hkeysiff k).mp hk)
    obtain ⟨k₁, hk₁mem, hget₁, hex₁, hall₁⟩ :=
      get_spec _ key (buildRing_sorted r hashFn calls₁) h1
    obtain ⟨k₂, hk₂mem, hget₂, hex₂, hall₂⟩ :=
      get_spec _ key (buildRing_sorted r hashFn calls₂) h2
    rw [buildRing_hash] at hex₁ hall₁ hex₂ hall₂
    have hkeq : k₁ = k₂ := by
      by_cases hex : ∃ k ∈ (buildRing r hashFn calls₁).keys, hashFn key ≤ k
      · obtain ⟨hle₁, hmin₁⟩ := hex₁ hex
        obtain ⟨hle₂, hmin₂⟩ := hex₂ (by
          obtain ⟨k, hk, hkle⟩ := hex
          exact ⟨k, (hkeysiff k).mp hk, hkle⟩)
        have ha := hmin₁ k₂ ((hkeysiff k₂).mpr hk₂mem) hle₂
        have hb := hmin₂ k₁ ((hkeysiff k₁).mp hk₁mem) hle₁
        omega
      · have hall : ∀ k ∈ (buildRing r hashFn calls₁).keys, k < hashFn key := by
          intro k hk
          by_contra hge
          exact hex ⟨k, hk, by omega⟩
        have hall' : ∀ k ∈ (buildRing r hashFn calls₂).keys, k < hashFn key := by
          intro k hk
          exact hall k ((hkeysiff k).mpr hk)
        have ha := hall₁ hall k₂ ((hkeysiff k₂).mpr hk₂mem)
        have hb := hall₂ hall' k₁ ((hkeysiff k₁).mp hk₁mem)
        omega
    subst hkeq
    rw [hget₁, hget₂]
    obtain ⟨p₁, hp₁⟩ := Option.isSome_iff_exists.mp
      (covered_buildRing r hashFn calls₁ k₁ hk₁mem)
    obtain ⟨p₂, hp₂⟩ := Option.isSome_iff_exists.mp
      (covered_buildRing r hashFn calls₂ k₁ ((hkeysiff k₁).mp hk₁mem))
    obtain ⟨hp₁mem, i, hi, hik⟩ := buildRing_hashMap_some r hashFn calls₁ k₁ p₁ hp₁
    obtain ⟨hp₂mem, j, hj, hjk⟩ := buildRing_hashMap_some r hashFn calls₂ k₁ p₂ hp₂
    have hpeq : p₁ = p₂ :=
      hcoll p₁ hp₁mem p₂ ((hmem' p₂).mpr hp₂mem) i hi j hj (by rw [hik, hjk])
    rw [hp₁, hp₂, hpeq]

/-- Witness for `ring_determinism`: the counterexample rings repaired with
a collision-free hash function agree on routing. -/
theorem ring_determinism_witness :
    (buildRing 2 demoHash [["A"], ["B"]]).Get "x" =
      (buildRing 2 demoHash [["B", "A"]]).Get "x" :=
  ring_determinism 2 demoHash [["A"], ["B"]] [["B", "A"]] "x" (by decide) (by decide)

end ConsistentHash

namespace Lru

/-- The `LruCache` struct.  The Go code keeps a doubly-linked list `dll`
(front = most recently used) and a map `cache` from key to list element,
always in sync; we represent both by the one list of entries in recency
order.  `Clear` sets both `dll` and `cache` to `nil`, and every operation
branches on `cache == nil`, so the entry list is an `Option`
(`none` = cleared/nil, `some []` = freshly constructed empty).
`MaxEntries` is a Go `int`.  The `OnEvicted` hook is modelled by having
every mutating operation also return the list of (key, value) pairs
passed to the hook, in call order. -/
structure LruCache (α β : Type) where
  maxEntries : Int
  entries : Option (List (α × β))

variable {α β : Type} [DecidableEq α]

/-- `NewLru(maxEntries)`. -/
def NewLru (maxEntries : Int) : LruCache α β :=
  { maxEntries := maxEntries, entries := some [] }

/-- `RemoveOldest()`: drop the back (least recently used) entry and fire
the hook on it; no-op on a nil or empty cache. -/
def RemoveOldest (c : LruCache α β) : LruCache α β × List (α × β) :=
  match c.entries with
  | none => (c, [])
  | some l =>
    match l.getLast? with
    | none => (c, [])
    | some e => ({ c with entries := some l.dropLast }, [e])

/-- `Add(key, value)`: re-initialise a nil cache; on a present key move
the entry to the front and update its value; otherwise push a new front
entry and, when `MaxEntries != 0 && len > MaxEntries`, evict via
`RemoveOldest`. -/
def Add (c : LruCache α β) (k : α) (v : β) : LruCache α β × List (α × β) :=
  let l := c.entries.getD []
  if l.any (fun e => decide (e.1 = k)) then
    ({ c with entries := some ((k, v) :: l.eraseP (fun e => decide (e.1 = k))) }, [])
  else
    let c' := { c with entries := some ((k, v) :: l) }
    if c.maxEntries ≠ 0 ∧ c.maxEntries < (((k, v) :: l).length : Int) then
      RemoveOldest c'
    else
      (c', [])

/-- `Get(key)`: `(value?, ok)` plus the cache after the move-to-front. -/
def Get (c : LruCache α β) (k : α) : (Option β × Bool) × LruCache α β :=
  match c.entries with
  | none => ((none, false), c)
  | some l =>
    match l.find? (fun e => decide (e.1 = k)) with
    | some e => ((some e.2, true),
        { c with entries := some (e :: l.eraseP (fun x => decide (x.1 = k))) })
    | none => ((none, false), c)

/-- `Remove(key)`: detach the entry and fire the hook on it, if present. -/
def Remove (c : LruCache α β) (k : α) : LruCache α β × List (α × β) :=
  match c.entries with
  | none => (c, [])
  | some l =>
    match l.find? (fun e => decide (e.1 = k)) with
    | some e => ({ c with entries := some (l.eraseP (fun x => decide (x.1 = k))) }, [e])
    | none => (c, [])

/-- `Len()`. -/
def Len (c : LruCache α β) : Nat :=
  match c.entries with
  | none => 0
  | some l => l.length

/-- `Clear()`: fire the hook on every remaining entry (Go iterates the
map in unspecified order; we report recency order) and nil out the
storage. -/
def Clear (c : LruCache α β) : LruCache α β × List (α × β) :=
  ({ c with entries := none }, c.entries.getD [])

/-- Fold `Add` over a list of key-value pairs, accumulating evictions. -/
def addAll (c : LruCache α β) (ps : List (α × β)) : LruCache α β × List (α × β) :=
  ps.foldl (fun acc p => ((Add acc.1 p.1 p.2).1, acc.2 ++ (Add acc.1 p.1 p.2).2)) (c, [])

/-- C10: after `Clear`, `Get` misses, `Len` is 0, `Remove` and
`RemoveOldest` are no-ops, and `Add` re-initialises the storage so the
cache behaves exactly like a freshly constructed one of the same
capacity. -/
theorem lru_clear_total (c : LruCache α β) (k : α) (v : β) :
    Get (Clear c).1 k = ((none, false), (Clear c).1) ∧
    Len (Clear c).1 = 0 ∧
    Remove (Clear c).1 k = ((Clear c).1, []) ∧
    RemoveOldest (Clear c).1 = ((Clear c).1, []) ∧
    Add (Clear c).1 k v = Add (NewLru c.maxEntries) k v :=
  ⟨rfl, rfl, rfl, rfl, rfl⟩

theorem addAll_append_singleton (c : LruCache α β) (ps : List (α × β)) (p : α × β) :
    addAll c (ps ++ [p]) =
      ((Add (addAll c ps).1 p.1 p.2).1,
        (addAll c ps).2 ++ (Add (addAll c ps).1 p.1 p.2).2) := by
  simp only [addAll, List.foldl_append, List.foldl_cons, List.foldl_nil]

/-- `Add` of a key not present in a non-nil cache: push front, then evict
if over capacity. -/
theorem Add_fresh (c : LruCache α β) (l : List (α × β)) (k : α) (v : β)
    (hent : c.entries = some l) (hfresh : ∀ e ∈ l, e.1 ≠ k) :
    Add c k v =
      if c.maxEntries ≠ 0 ∧ c.maxEntries < ((l.length + 1 : Nat) : Int) then
        RemoveOldest { c with entries := some ((k, v) :: l) }
      else ({ c with entries := some ((k, v) :: l) }, []) := by
  have hany : l.any (fun e => decide (e.1 = k)) = false := by
    rw [List.any_eq_false]
    intro e he
    simpa using hfresh e he
  simp only [Add, hent, Option.getD_some, hany, Bool.false_eq_true, if_false,
    List.length_cons]

omit [DecidableEq α] in
theorem RemoveOldest_concat (c : LruCache α β) (l : List (α × β)) (e : α × β)
    (hent : c.entries = some (l ++ [e])) :
    RemoveOldest c = ({ c with entries := some l }, [e]) := by
  simp only [RemoveOldest, hent, List.getLast?_concat, List.dropLast_concat]

/-- State and accumulated evictions after filling a fresh bounded cache
with distinct keys: the last `C` inserts survive in recency order, the
first `length − C` entries get evicted in insertion order. -/
theorem addAll_spec (C : Int) (hC : 0 < C) (ps : List (α × β)) :
    (ps.map Prod.fst).Nodup →
    (addAll (NewLru C) ps).1.maxEntries = C ∧
    (addAll (NewLru C) ps).1.entries =
      some ((ps.drop (ps.length - C.toNat)).reverse) ∧
    (addAll (NewLru C) ps).2 = ps.take (ps.length - C.toNat) := by
  have hCtoNat : (C.toNat : Int) = C := Int.toNat_of_nonneg (by omega)
  induction ps using List.reverseRecOn with
  | nil =>
    intro _
    refine ⟨rfl, ?_, ?_⟩
    · simp only [List.drop_nil, List.reverse_nil]
      rfl
    · simp only [List.take_nil]
      rfl
  | append_singleton qs p ih =>
    intro hnodup
    rw [List.map_append, List.nodup_append] at hnodup
    obtain ⟨hnd, _, hdisj⟩ := hnodup
    have hpfresh : p.1 ∉ qs.map Prod.fst := fun hmem => hdisj hmem (by simp)
    obtain ⟨ihmax, ihent, ihev⟩ := ih hnd
    rw [addAll_append_singleton]
    have hfresh : ∀ e ∈ (qs.drop (qs.length - C.toNat)).reverse, e.1 ≠ p.1 := by
      intro e he heq
      exact hpfresh (heq ▸ List.mem_map_of_mem Prod.fst
        (List.mem_of_mem_drop (List.mem_reverse.mp he)))
    have hlen_rev : (qs.drop (qs.length - C.toNat)).reverse.length =
        qs.length - (qs.length - C.toNat) := by
      simp
    by_cases hcase : qs.length < C.toNat
    · -- still under capacity: no eviction
      have hd : qs.length - C.toNat = 0 := by omega
      have hcond : ¬((addAll (NewLru C) qs).1.maxEntries ≠ 0 ∧
          (addAll (NewLru C) qs).1.maxEntries <
            (((qs.drop (qs.length - C.toNat)).reverse.length + 1 : Nat) : Int)) := by
        rw [ihmax]
        rintro ⟨-, hlt⟩
        rw [hlen_rev, hd] at hlt
        omega
      rw [Add_fresh _ _ _ _ ihent hfresh, if_neg hcond]
      refine ⟨ihmax, ?_, ?_⟩
      · have hd' : (qs ++ [p]).length - C.toNat = 0 := by
          simp only [List.length_append, List.length_singleton]
          omega
        rw [hd, hd']
        simp
      · have hd' : (qs ++ [p]).length - C.toNat = 0 := by
          simp only [List.length_append, List.length_singleton]
          omega
        rw [ihev, hd, hd']
        simp
    · -- at capacity: the oldest entry is evicted
      have hdlt : qs.length - C.toNat < qs.length := by omega
      have hkept : qs.drop (qs.length - C.toNat) =
          qs[qs.length - C.toNat] :: qs.drop (qs.length - C.toNat + 1) :=
        List.drop_eq_getElem_cons hdlt
      have hcond : (addAll (NewLru C) qs).1.maxEntries ≠ 0 ∧
          (addAll (NewLru C) qs).1.maxEntries <
            (((qs.drop (qs.length - C.toNat)).reverse.length + 1 : Nat) : Int) := by
        rw [ihmax]
        refine ⟨by omega, ?_⟩
        rw [hlen_rev]
        omega
      rw [Add_fresh _ _ _ _ ihent hfresh, if_pos hcond]
      rw [RemoveOldest_concat _
        ((p.1, p.2) :: (qs.drop (qs.length - C.toNat + 1)).reverse)
        qs[qs.length - C.toNat]
        (by rw [hkept]; simp)]
      have hd' : (qs ++ [p]).length - C.toNat = qs.length - C.toNat + 1 := by
        simp only [List.length_append, List.length_singleton]
        omega
      refine ⟨ihmax, ?_, ?_⟩
      · rw [hd', List.drop_append_of_le_length (by omega)]
        simp
      · rw [ihev, hd', List.take_append_of_le_length (by omega),
          ← List.take_concat_get qs (qs.length - C.toNat) hdlt,
          List.concat_eq_append]

omit [DecidableEq α] in
theorem Len_eq_length_getD (c : LruCache α β) :
    (c.entries.getD []).length = Len c := by
  cases h : c.entries <;> simp [Len, h]

/-- C2: filling a fresh cache of capacity `C > 0` with `N > C` distinct
keys and no intervening `Get`s fires the eviction hook exactly `N − C`
times, on the first `N − C` inserted keys in insertion order. -/
theorem lru_eviction_order (C : Int) (ps : List (α × β)) (hC : 0 < C)
    (hnodup : (ps.map Prod.fst).Nodup) (hlen : C < (ps.length : Int)) :
    (addAll (NewLru C) ps).2.length = ps.length - C.toNat ∧
    (addAll (NewLru C) ps).2.map Prod.fst =
      (ps.map Prod.fst).take (ps.length - C.toNat) := by
  obtain ⟨-, -, hev⟩ := addAll_spec C hC ps hnodup
  rw [hev]
  constructor
  · rw [List.length_take]
    omega
  · rw [List.map_take]

/-- Witness for `lru_eviction_order`: capacity 2, three distinct keys,
exactly one eviction, namely the first key. -/
theorem lru_eviction_order_witness :
    (addAll (NewLru 2) ([(1, 10), (2, 20), (3, 30)] : List (Nat × Nat))).2.length =
      [(1, 10), (2, 20), (3, 30)].length - (2 : Int).toNat ∧
    (addAll (NewLru 2) ([(1, 10), (2, 20), (3, 30)] : List (Nat × Nat))).2.map Prod.fst =
      ([(1, 10), (2, 20), (3, 30)].map Prod.fst).take
        ([(1, 10), (2, 20), (3, 30)].length - (2 : Int).toNat) :=
  lru_eviction_order 2 [(1, 10), (2, 20), (3, 30)] (by decide) (by decide) (by decide)

/-- C7: with `MaxEntries = C > 0` and the size invariant holding before,
every mutating operation leaves `Len ≤ C`; and when the cache is full and
the key is new, `Add` evicts exactly the back (least recently used)
entry. -/
theorem Len_Remove_le (c : LruCache α β) (k : α) : Len (Remove c k).1 ≤ Len c := by
  cases h : c.entries with
  | none => simp [Remove, h]
  | some l =>
    cases hf : l.find? (fun x => decide (x.1 = k)) with
    | none => simp [Remove, h, hf]
    | some e =>
      simp only [Remove, h, hf, Len]
      have hpe : (fun x => decide (x.1 = k)) e = true :=
        List.find?_some (p := fun x : α × β => decide (x.1 = k)) hf
      have herase :=
        List.length_eraseP_of_mem (p := fun x : α × β => decide (x.1 = k))
          (List.mem_of_find?_eq_some hf) hpe
      omega

omit [DecidableEq α] in
theorem Len_RemoveOldest_le (c : LruCache α β) : Len (RemoveOldest c).1 ≤ Len c := by
  cases h : c.entries with
  | none => simp [RemoveOldest, h]
  | some l =>
    cases hg : l.getLast? with
    | none => simp [RemoveOldest, h, hg]
    | some e =>
      simp only [RemoveOldest, h, hg, Len, List.length_dropLast]
      omega

theorem Len_Add_le (c : LruCache α β) (k : α) (v : β) (C : Int)
    (hC : 0 < C) (hmax : c.maxEntries = C) (hlen : (Len c : Int) ≤ C) :
    (Len (Add c k v).1 : Int) ≤ C := by
  have hLl : ((c.entries.getD []).length : Int) ≤ C := by
    rw [Len_eq_length_getD]
    exact hlen
  simp only [Add]
  by_cases hany : (c.entries.getD []).any (fun e => decide (e.1 = k)) = true
  · rw [if_pos hany]
    obtain ⟨e, he, hpe⟩ := List.any_eq_true.mp hany
    have hpe' : (fun x => decide (x.1 = k)) e = true := hpe
    have herase :=
      List.length_eraseP_of_mem (p := fun x : α × β => decide (x.1 = k)) he hpe'
    have hmemlen : 1 ≤ (c.entries.getD []).length := List.length_pos.mpr
      (List.ne_nil_of_mem he)
    simp only [Len, List.length_cons]
    rw [herase]
    push_cast
    omega
  · rw [if_neg hany]
    by_cases hcond : c.maxEntries ≠ 0 ∧
        c.maxEntries < ((((k, v) :: c.entries.getD []).length : Nat) : Int)
    · rw [if_pos hcond]
      simp only [RemoveOldest]
      cases hg : ((k, v) :: c.entries.getD []).getLast? with
      | none =>
        exact absurd (List.getLast?_eq_none_iff.mp hg) (by simp)
      | some e =>
        simp only [Len, List.length_dropLast, List.length_cons]
        push_cast
        omega
    · rw [if_neg hcond]
      simp only [Len, List.length_cons]
      rw [hmax] at hcond
      push_neg at hcond
      have hle := hcond (by omega)
      simp only [List.length_cons] at hle
      push_cast at hle ⊢
      omega

/-- C7: with `MaxEntries = C > 0` and the size invariant holding before,
every mutating operation leaves `Len ≤ C`; and when the cache is full and
the key is new, `Add` evicts exactly the back (least recently used)
entry. -/
theorem lru_capacity_invariant (c : LruCache α β) (C : Int) (k : α) (v : β)
    (hC : 0 < C) (hmax : c.maxEntries = C) (hlen : (Len c : Int) ≤ C) :
    ((Len (Add c k v).1 : Int) ≤ C) ∧
    ((Len (Remove c k).1 : Int) ≤ C) ∧
    ((Len (RemoveOldest c).1 : Int) ≤ C) ∧
    ((Len (Clear c).1 : Int) ≤ C) ∧
    ((Len c : Int) = C → (∀ e ∈ c.entries.getD [], e.1 ≠ k) →
      (Add c k v).2 = (c.entries.getD []).getLast?.toList) := by
  refine ⟨Len_Add_le c k v C hC hmax hlen, ?_, ?_, ?_, ?_⟩
  · have := Len_Remove_le c k
    omega
  · have := Len_RemoveOldest_le c
    omega
  · simp only [Clear, Len]
    omega
  · -- full cache, fresh key: Add evicts exactly the back entry
    intro hfull hfresh
    have hany : (c.entries.getD []).any (fun e => decide (e.1 = k)) = false := by
      rw [List.any_eq_false]
      intro e he
      simpa using hfresh e he
    have hlength : ((c.entries.getD []).length : Int) = C := by
      rw [Len_eq_length_getD]
      exact hfull
    have hnenil : c.entries.getD [] ≠ [] := by
      intro hnil
      rw [hnil] at hlength
      simp at hlength
      omega
    simp only [Add]
    rw [if_neg (by simp [hany]), if_pos (by
      refine ⟨by rw [hmax]; omega, ?_⟩
      rw [hmax]
      simp only [List.length_cons]
      push_cast
      omega)]
    simp only [RemoveOldest]
    rw [List.getLast?_cons]
    cases hg : (c.entries.getD []).getLast? with
    | none => exact absurd (List.getLast?_eq_none_iff.mp hg) hnenil
    | some e => rfl

/-- Witness for `lru_capacity_invariant` on a full two-entry cache and a
fresh key (so the eviction clause is exercised). -/
theorem lru_capacity_invariant_witness :
    ((Len (Add ⟨2, some [(5, 50), (6, 60)]⟩ 7 (70 : Nat)).1 : Int) ≤ 2) ∧
    ((Len (Remove (⟨2, some [(5, 50), (6, 60)]⟩ : LruCache Nat Nat) 7).1 : Int) ≤ 2) ∧
    ((Len (RemoveOldest (⟨2, some [(5, 50), (6, 60)]⟩ : LruCache Nat Nat)).1 : Int) ≤ 2) ∧
    ((Len (Clear (⟨2, some [(5, 50), (6, 60)]⟩ : LruCache Nat Nat)).1 : Int) ≤ 2) ∧
    ((Len (⟨2, some [(5, 50), (6, 60)]⟩ : LruCache Nat Nat) : Int) = 2 →
      (∀ e ∈ ((⟨2, some [(5, 50), (6, 60)]⟩ : LruCache Nat Nat)).entries.getD [], e.1 ≠ 7) →
      (Add (⟨2, some [(5, 50), (6, 60)]⟩ : LruCache Nat Nat) 7 70).2 =
        (((⟨2, some [(5, 50), (6, 60)]⟩ : LruCache Nat Nat)).entries.getD []).getLast?.toList) :=
  lru_capacity_invariant ⟨2, some [(5, 50), (6, 60)]⟩ 2 7 70 (by decide) rfl (by decide)

end Lru

namespace P2p

/-- `ByteView` from `byteview.go`: wraps either a `[]byte` or a `string`;
`b` is used if non-nil (`v.b != nil`), else `s`.  Bytes are `Nat`s below
256; a Go string is its byte sequence.  A nil byte slice is `none`; a
non-nil empty slice is `some []`. -/
structure ByteView where
  b : Option (List Nat)
  s : List Nat
deriving DecidableEq

/-- The byte content a `ByteView` denotes (the branch every accessor
takes on `v.b != nil`). -/
def ByteView.data (v : ByteView) : List Nat :=
  match v.b with
  | some bs => bs
  | none => v.s

/-- `Len()`. -/
def ByteView.len (v : ByteView) : Nat :=
  match v.b with
  | some bs => bs.length
  | none => v.s.length

/-- Go's built-in `copy(dst, src)`: copies `min(len(dst), len(src))`
bytes into the front of `dst`; returns the updated `dst` and the count. -/
def goCopy (dst src : List Nat) : List Nat × Nat :=
  (src.take (min dst.length src.length) ++ dst.drop (min dst.length src.length),
    min dst.length src.length)

/-- `Copy(dst)`. -/
def ByteView.copyInto (v : ByteView) (dst : List Nat) : List Nat × Nat :=
  match v.b with
  | some bs => goCopy dst bs
  | none => goCopy dst v.s

/-- `SliceFrom(from)`: Go slicing `x[from:]` panics (`none`) when
`from > len(x)`. -/
def ByteView.sliceFrom (v : ByteView) (start : Nat) : Option ByteView :=
  match v.b with
  | some bs => if start ≤ bs.length then some ⟨some (bs.drop start), []⟩ else none
  | none => if start ≤ v.s.length then some ⟨none, v.s.drop start⟩ else none

/-- Outcome of `ReadAt`: `ok p n eof` is a normal return of `n` with the
destination buffer now `p` and `err = io.EOF` iff `eof`; `invalidOffset`
is the explicit error return; `crash` is a Go panic. -/
inductive ReadAtResult where
  | ok (p : List Nat) (n : Nat) (eof : Bool)
  | invalidOffset
  | crash
deriving DecidableEq

/-- `ReadAt(p, off)` exactly as written in `byteview.go` — note the
second guard compares `off` against `len(p)`, the *destination* length. -/
def ByteView.readAt (v : ByteView) (p : List Nat) (off : Int) : ReadAtResult :=
  if off < 0 then .invalidOffset
  else if (p.length : Int) ≤ off then .ok p 0 true
  else
    match v.sliceFrom off.toNat with
    | none => .crash
    | some sub =>
      let r := sub.copyInto p
      .ok r.1 r.2 (decide (r.2 < p.length))

/-- C6 evidence: the code guards with `off >= int64(len(p))` instead of
`off >= v.Len()`.  On content "abcdef" (length 6), buffer length 2,
offset 3 — an offset strictly inside the content — it returns 0 bytes and
EOF instead of copying the 2 available bytes "de"; and on content "ab"
(length 2), buffer length 4, offset 3 — an offset past the content, which
the claim says must yield plain EOF — it panics on the out-of-range
slice. -/
theorem byteview_readAt_bug :
    (ByteView.mk none [97, 98, 99, 100, 101, 102]).len = 6 ∧
    (ByteView.mk none [97, 98, 99, 100, 101, 102]).readAt [0, 0] 3 =
      ReadAtResult.ok [0, 0] 0 true ∧
    (ByteView.mk none [97, 98]).len = 2 ∧
    (ByteView.mk none [97, 98]).readAt [0, 0, 0, 0] 3 = ReadAtResult.crash := by
  decide

/-- `cloneBytes(b)`: a deep copy; with value semantics the copy has the
same content (aliasing is outside this model). -/
def cloneBytes (b : List Nat) : List Nat := b

/-- Outcome of a `Set*` call on a sink: `ok` carries the sink after the
mutation, `err` carries the Go error message and the (unmutated) sink,
`crash` is a Go panic (e.g. a nil-pointer dereference). -/
inductive SetResult (σ : Type) where
  | ok (sk : σ)
  | err (msg : String) (sk : σ)
  | crash
deriving DecidableEq

/-- `stringSink`: `str` models the `*string` destination (`none` = nil
pointer), `v` the cached mirror. -/
structure StringSink where
  str : Option (List Nat)
  v : ByteView
deriving DecidableEq

/-- `stringSink.SetString`: `*sk.str = str` dereferences the destination
(panic when nil); `sk.v.b = nil; sk.v.s = str`. -/
def StringSink.SetString (sk : StringSink) (s : List Nat) : SetResult StringSink :=
  match sk.str with
  | none => .crash
  | some _ => .ok { str := some s, v := { b := none, s := s } }

/-- `stringSink.SetBytes(b)` = `SetString(string(b))`. -/
def StringSink.SetBytes (sk : StringSink) (b : List Nat) : SetResult StringSink :=
  sk.SetString b

/-- `stringSink.SetProto`: marshal (external `proto.Marshal`, a
parameter), then `sk.v.b = b; *sk.str = string(b)` (note `sk.v.s` is left
as it was). -/
def StringSink.SetProto {μ : Type} (marshal : μ → Except String (List Nat))
    (sk : StringSink) (m : μ) : SetResult StringSink :=
  match marshal m with
  | .error e => .err e sk
  | .ok b =>
    match sk.str with
    | none => .crash
    | some _ => .ok { str := some b, v := { sk.v with b := some b } }

/-- `stringSink.view()` returns `(sk.v, nil)`. -/
def StringSink.view (sk : StringSink) : ByteView := sk.v

/-- `byteViewSink`: `dst` models the `*ByteView` destination. -/
structure BvSink where
  dst : Option ByteView
deriving DecidableEq

/-- `ByteViewSink(dst)` panics on a nil destination. -/
def BvSinkNew (dst : Option ByteView) : SetResult BvSink :=
  match dst with
  | none => .crash
  | some _ => .ok { dst := dst }

def BvSink.SetBytes (sk : BvSink) (b : List Nat) : SetResult BvSink :=
  match sk.dst with
  | none => .crash
  | some _ => .ok { dst := some ⟨some (cloneBytes b), []⟩ }

def BvSink.SetString (sk : BvSink) (s : List Nat) : SetResult BvSink :=
  match sk.dst with
  | none => .crash
  | some _ => .ok { dst := some ⟨none, s⟩ }

def BvSink.SetProto {μ : Type} (marshal : μ → Except String (List Nat))
    (sk : BvSink) (m : μ) : SetResult BvSink :=
  match marshal m with
  | .error e => .err e sk
  | .ok b =>
    match sk.dst with
    | none => .crash
    | some _ => .ok { dst := some ⟨some b, []⟩ }

/-- `byteViewSink.view()` returns `*sk.dst`. -/
def BvSink.view (sk : BvSink) : SetResult ByteView :=
  match sk.dst with
  | none => .crash
  | some d => .ok d

/-- `protoSink`: `dst` is the destination message (handling of a nil
`proto.Message` happens inside the external protobuf library and is not
modelled); `typ` is unused by the source; `v` is the encoded mirror.
`proto.Marshal` / `proto.Unmarshal` are external and passed as
parameters. -/
structure ProtoSink (μ : Type) where
  dst : μ
  typ : String
  v : ByteView

def ProtoSink.SetProto {μ : Type} (marshal : μ → Except String (List Nat))
    (unmarshal : List Nat → μ → Except String μ)
    (sk : ProtoSink μ) (m : μ) : SetResult (ProtoSink μ) :=
  match marshal m with
  | .error e => .err e sk
  | .ok b =>
    match unmarshal b sk.dst with
    | .error e => .err e sk
    | .ok d => .ok { sk with dst := d, v := { b := some b, s := [] } }

def ProtoSink.SetBytes {μ : Type} (unmarshal : List Nat → μ → Except String μ)
    (sk : ProtoSink μ) (b : List Nat) : SetResult (ProtoSink μ) :=
  match unmarshal b sk.dst with
  | .error e => .err e sk
  | .ok d => .ok { sk with dst := d, v := { b := some (cloneBytes b), s := [] } }

def ProtoSink.SetString {μ : Type} (unmarshal : List Nat → μ → Except String μ)
    (sk : ProtoSink μ) (s : List Nat) : SetResult (ProtoSink μ) :=
  match unmarshal s sk.dst with
  | .error e => .err e sk
  | .ok d => .ok { sk with dst := d, v := { b := some s, s := [] } }

def ProtoSink.view {μ : Type} (sk : ProtoSink μ) : ByteView := sk.v

/-- `allocBytesSink`: `dst` models the `*[]byte` destination (`none` =
nil pointer), `v` the mirror. -/
structure AllocSink where
  dst : Option (List Nat)
  v : ByteView
deriving DecidableEq

def AllocSink.setBytesOwned (sk : AllocSink) (b : List Nat) : SetResult AllocSink :=
  match sk.dst with
  | none => .err "nil AllocatingByteSliceSink *[]byte dst" sk
  | some _ => .ok { dst := some (cloneBytes b), v := { b := some b, s := [] } }

def AllocSink.SetBytes (sk : AllocSink) (b : List Nat) : SetResult AllocSink :=
  sk.setBytesOwned (cloneBytes b)

def AllocSink.SetString (sk : AllocSink) (s : List Nat) : SetResult AllocSink :=
  match sk.dst with
  | none => .err "nil AllocatingByteSliceSink *[]byte dst" sk
  | some _ => .ok { dst := some s, v := { b := none, s := s } }

def AllocSink.SetProto {μ : Type} (marshal : μ → Except String (List Nat))
    (sk : AllocSink) (m : μ) : SetResult AllocSink :=
  match marshal m with
  | .error e => .err e sk
  | .ok b => sk.setBytesOwned b

def AllocSink.view (sk : AllocSink) : ByteView := sk.v

/-- `truncBytesSink`: like `allocBytesSink` but `Set*` copies into the
existing destination via `copy` and shrinks it when fewer bytes were
copied than it could hold. -/
structure TruncSink where
  dst : Option (List Nat)
  v : ByteView
deriving DecidableEq

def TruncSink.setBytesOwned (sk : TruncSink) (b : List Nat) : SetResult TruncSink :=
  match sk.dst with
  | none => .err "nil TruncatingByteSliceSink *[]byte dst" sk
  | some d =>
    let r := goCopy d b
    let d' := if r.2 < r.1.length then r.1.take r.2 else r.1
    .ok { dst := some d', v := { b := some b, s := [] } }

def TruncSink.SetBytes (sk : TruncSink) (b : List Nat) : SetResult TruncSink :=
  sk.setBytesOwned (cloneBytes b)

def TruncSink.SetString (sk : TruncSink) (s : List Nat) : SetResult TruncSink :=
  match sk.dst with
  | none => .err "nil TruncatingByteSliceSink *[]byte dst" sk
  | some d =>
    let r := goCopy d s
    let d' := if r.2 < r.1.length then r.1.take r.2 else r.1
    .ok { dst := some d', v := { b := none, s := s } }

def TruncSink.SetProto {μ : Type} (marshal : μ → Except String (List Nat))
    (sk : TruncSink) (m : μ) : SetResult TruncSink :=
  match marshal m with
  | .error e => .err e sk
  | .ok b => sk.setBytesOwned b

def TruncSink.view (sk : TruncSink) : ByteView := sk.v

/-- C4: for every sink variant, a successful `SetBytes` / `SetString` /
`SetProto` followed by `view()` yields content byte-equal to the input
(for `SetProto`, to the proto encoding of the message). -/
theorem sink_roundtrip (μ : Type) (marshal : μ → Except String (List Nat))
    (unmarshal : List Nat → μ → Except String μ) :
    (∀ (sk sk' : StringSink) (b : List Nat),
      sk.SetBytes b = .ok sk' → sk'.view.data = b) ∧
    (∀ (sk sk' : StringSink) (s : List Nat),
      sk.SetString s = .ok sk' → sk'.view.data = s) ∧
    (∀ (sk sk' : StringSink) (m : μ) (enc : List Nat), marshal m = .ok enc →
      StringSink.SetProto marshal sk m = .ok sk' → sk'.view.data = enc) ∧
    (∀ (sk sk' : BvSink) (b : List Nat) (d : ByteView),
      sk.SetBytes b = .ok sk' → sk'.view = .ok d → d.data = b) ∧
    (∀ (sk sk' : BvSink) (s : List Nat) (d : ByteView),
      sk.SetString s = .ok sk' → sk'.view = .ok d → d.data = s) ∧
    (∀ (sk sk' : BvSink) (m : μ) (enc : List Nat) (d : ByteView), marshal m = .ok enc →
      BvSink.SetProto marshal sk m = .ok sk' → sk'.view = .ok d → d.data = enc) ∧
    (∀ (sk sk' : ProtoSink μ) (b : List Nat),
      ProtoSink.SetBytes unmarshal sk b = .ok sk' → sk'.view.data = b) ∧
    (∀ (sk sk' : ProtoSink μ) (s : List Nat),
      ProtoSink.SetString unmarshal sk s = .ok sk' → sk'.view.data = s) ∧
    (∀ (sk sk' : ProtoSink μ) (m : μ) (enc : List Nat), marshal m = .ok enc →
      ProtoSink.SetProto marshal unmarshal sk m = .ok sk' → sk'.view.data = enc) ∧
    (∀ (sk sk' : AllocSink) (b : List Nat),
      sk.SetBytes b = .ok sk' → sk'.view.data = b) ∧
    (∀ (sk sk' : AllocSink) (s : List Nat),
      sk.SetString s = .ok sk' → sk'.view.data = s) ∧
    (∀ (sk sk' : AllocSink) (m : μ) (enc : List Nat), marshal m = .ok enc →
      AllocSink.SetProto marshal sk m = .ok sk' → sk'.view.data = enc) ∧
    (∀ (sk sk' : TruncSink) (b : List Nat),
      sk.SetBytes b = .ok sk' → sk'.view.data = b) ∧
    (∀ (sk sk' : TruncSink) (s : List Nat),
      sk.SetString s = .ok sk' → sk'.view.data = s) ∧
    (∀ (sk sk' : TruncSink) (m : μ) (enc : List Nat), marshal m = .ok enc →
      TruncSink.SetProto marshal sk m = .ok sk' → sk'.view.data = enc) := by
  refine ⟨?_, ?_, ?_, ?_, ?_, ?_, ?_, ?_, ?_, ?_, ?_, ?_, ?_, ?_, ?_⟩
  · rintro sk sk' b h
    rw [StringSink.SetBytes, StringSink.SetString] at h
    cases hstr : sk.str with
    | none => rw [hstr] at h; simp at h
    | some s0 =>
      rw [hstr] at h
      simp only [SetResult.ok.injEq] at h
      subst h
      rfl
  · rintro sk sk' s h
    rw [StringSink.SetString] at h
    cases hstr : sk.str with
    | none => rw [hstr] at h; simp at h
    | some s0 =>
      rw [hstr] at h
      simp only [SetResult.ok.injEq] at h
      subst h
      rfl
  · rintro sk sk' m enc hmar h
    rw [StringSink.SetProto, hmar] at h
    cases hstr : sk.str with
    | none => rw [hstr] at h; simp at h
    | some s0 =>
      rw [hstr] at h
      simp only [SetResult.ok.injEq] at h
      subst h
      rfl
  · rintro sk sk' b d h hv
    rw [BvSink.SetBytes] at h
    cases hdst : sk.dst with
    | none => rw [hdst] at h; simp at h
    | some d0 =>
      rw [hdst] at h
      simp only [SetResult.ok.injEq] at h
      subst h
      rw [BvSink.view] at hv
      simp only [SetResult.ok.injEq] at hv
      subst hv
      rfl
  · rintro sk sk' s d h hv
    rw [BvSink.SetString] at h
    cases hdst : sk.dst with
    | none => rw [hdst] at h; simp at h
    | some d0 =>
      rw [hdst] at h
      simp only [SetResult.ok.injEq] at h
      subst h
      rw [BvSink.view] at hv
      simp only [SetResult.ok.injEq] at hv
      subst hv
      rfl
  · rintro sk sk' m enc d hmar h hv
    rw [BvSink.SetProto, hmar] at h
    cases hdst : sk.dst with
    | none => rw [hdst] at h; simp at h
    | some d0 =>
      rw [hdst] at h
      simp only [SetResult.ok.injEq] at h
      subst h
      rw [BvSink.view] at hv
      simp only [SetResult.ok.injEq] at hv
      subst hv
      rfl
  · rintro sk sk' b h
    rw [ProtoSink.SetBytes] at h
    cases hu : unmarshal b sk.dst with
    | error e => rw [hu] at h; simp at h
    | ok d =>
      rw [hu] at h
      simp only [SetResult.ok.injEq] at h
      subst h
      rfl
  · rintro sk sk' s h
    rw [ProtoSink.SetString] at h
    cases hu : unmarshal s sk.dst with
    | error e => rw [hu] at h; simp at h
    | ok d =>
      rw [hu] at h
      simp only [SetResult.ok.injEq] at h
      subst h
      rfl
  · rintro sk sk' m enc hmar h
    simp only [ProtoSink.SetProto, hmar] at h
    cases hu : unmarshal enc sk.dst with
    | error e => rw [hu] at h; simp at h
    | ok d =>
      rw [hu] at h
      simp only [SetResult.ok.injEq] at h
      subst h
      rfl
  · rintro sk sk' b h
    rw [AllocSink.SetBytes, AllocSink.setBytesOwned] at h
    cases hdst : sk.dst with
    | none => rw [hdst] at h; simp at h
    | some d0 =>
      rw [hdst] at h
      simp only [SetResult.ok.injEq] at h
      subst h
      rfl
  · rintro sk sk' s h
    rw [AllocSink.SetString] at h
    cases hdst : sk.dst with
    | none => rw [hdst] at h; simp at h
    | some d0 =>
      rw [hdst] at h
      simp only [SetResult.ok.injEq] at h
      subst h
      rfl
  · rintro sk sk' m enc hmar h
    simp only [AllocSink.SetProto, hmar, AllocSink.setBytesOwned] at h
    cases hdst : sk.dst with
    | none => rw [hdst] at h; simp at h
    | some d0 =>
      rw [hdst] at h
      simp only [SetResult.ok.injEq] at h
      subst h
      rfl
  · rintro sk sk' b h
    rw [TruncSink.SetBytes, TruncSink.setBytesOwned] at h
    cases hdst : sk.dst with
    | none => rw [hdst] at h; simp at h
    | some d0 =>
      rw [hdst] at h
      simp only [SetResult.ok.injEq] at h
      subst h
      rfl
  · rintro sk sk' s h
    rw [TruncSink.SetString] at h
    cases hdst : sk.dst with
    | none => rw [hdst] at h; simp at h
    | some d0 =>
      rw [hdst] at h
      simp only [SetResult.ok.injEq] at h
      subst h
      rfl
  · rintro sk sk' m enc hmar h
    simp only [TruncSink.SetProto, hmar, TruncSink.setBytesOwned] at h
    cases hdst : sk.dst with
    | none => rw [hdst] at h; simp at h
    | some d0 =>
      rw [hdst] at h
      simp only [SetResult.ok.injEq] at h
      subst h
      rfl

/-- Witness for `sink_roundtrip`: the proto path of the string sink on a
concrete message encoding to `[7, 8]`. -/
theorem sink_roundtrip_witness :
    (StringSink.mk (some [7, 8]) ⟨some [7, 8], []⟩).view.data = [7, 8] :=
  (sink_roundtrip Unit (fun _ => Except.ok [7, 8]) (fun _ _ => Except.ok ())).2.2.1
    ⟨some [], ⟨none, []⟩⟩ ⟨some [7, 8], ⟨some [7, 8], []⟩⟩ () [7, 8] rfl rfl

/-- The destination update performed by the truncating sink
(`n := copy(*dst, b); if n < len(*dst) { *dst = (*dst)[:n] }`) leaves
the destination equal to the whole input when the input is shorter, and
to the input's first `len(dst)` bytes otherwise. -/
theorem truncDst (d b : List Nat) :
    (if (goCopy d b).2 < (goCopy d b).1.length then (goCopy d b).1.take (goCopy d b).2
      else (goCopy d b).1) =
    if b.length < d.length then b else b.take d.length := by
  by_cases hbd : b.length < d.length
  · have hn : min d.length b.length = b.length := by omega
    simp only [goCopy, hn, List.take_length]
    have hlen : (b ++ d.drop b.length).length = d.length := by
      simp only [List.length_append, List.length_drop]
      omega
    rw [if_pos (by rw [hlen]; exact hbd), if_pos hbd]
    exact List.take_left b _
  · have hn : min d.length b.length = d.length := by omega
    simp only [goCopy, hn, List.drop_length, List.append_nil]
    have hlen : (b.take d.length).length = d.length := by
      simp only [List.length_take]
      omega
    rw [if_neg (by rw [hlen]; omega), if_neg hbd]

/-- C5: the truncating sink never grows its destination; a shorter input
replaces the destination exactly, a longer (or equal) input fills exactly
the destination's pre-call length with the input's first bytes. -/
theorem trunc_sink_dst (d : List Nat) (v₀ : ByteView) (μ : Type)
    (marshal : μ → Except String (List Nat)) :
    (∀ (b : List Nat) (sk' : TruncSink), TruncSink.SetBytes ⟨some d, v₀⟩ b = .ok sk' →
      ∃ d', sk'.dst = some d' ∧ d'.length ≤ d.length ∧
        (b.length < d.length → d' = b) ∧
        (d.length ≤ b.length → d' = b.take d.length)) ∧
    (∀ (s : List Nat) (sk' : TruncSink), TruncSink.SetString ⟨some d, v₀⟩ s = .ok sk' →
      ∃ d', sk'.dst = some d' ∧ d'.length ≤ d.length ∧
        (s.length < d.length → d' = s) ∧
        (d.length ≤ s.length → d' = s.take d.length)) ∧
    (∀ (m : μ) (enc : List Nat) (sk' : TruncSink), marshal m = .ok enc →
      TruncSink.SetProto marshal ⟨some d, v₀⟩ m = .ok sk' →
      ∃ d', sk'.dst = some d' ∧ d'.length ≤ d.length ∧
        (enc.length < d.length → d' = enc) ∧
        (d.length ≤ enc.length → d' = enc.take d.length)) := by
  have hcore : ∀ (x : List Nat),
      (if x.length < d.length then x else x.take d.length).length ≤ d.length ∧
      (x.length < d.length → (if x.length < d.length then x else x.take d.length) = x) ∧
      (d.length ≤ x.length →
        (if x.length < d.length then x else x.take d.length) = x.take d.length) := by
    intro x
    by_cases hx : x.length < d.length
    · rw [if_pos hx]
      exact ⟨by omega, fun _ => rfl, fun hle => absurd hx (by omega)⟩
    · rw [if_neg hx]
      refine ⟨?_, fun hlt => absurd hlt hx, fun _ => rfl⟩
      simp only [List.length_take]
      omega
  refine ⟨?_, ?_, ?_⟩
  · rintro b sk' h
    simp only [TruncSink.SetBytes, TruncSink.setBytesOwned, cloneBytes,
      SetResult.ok.injEq] at h
    subst h
    exact ⟨_, rfl, by rw [truncDst]; exact (hcore b).1,
      fun hlt => by rw [truncDst]; exact (hcore b).2.1 hlt,
      fun hle => by rw [truncDst]; exact (hcore b).2.2 hle⟩
  · rintro s sk' h
    simp only [TruncSink.SetString, SetResult.ok.injEq] at h
    subst h
    exact ⟨_, rfl, by rw [truncDst]; exact (hcore s).1,
      fun hlt => by rw [truncDst]; exact (hcore s).2.1 hlt,
      fun hle => by rw [truncDst]; exact (hcore s).2.2 hle⟩
  · rintro m enc sk' hmar h
    simp only [TruncSink.SetProto, hmar, TruncSink.setBytesOwned,
      SetResult.ok.injEq] at h
    subst h
    exact ⟨_, rfl, by rw [truncDst]; exact (hcore enc).1,
      fun hlt => by rw [truncDst]; exact (hcore enc).2.1 hlt,
      fun hle => by rw [truncDst]; exact (hcore enc).2.2 hle⟩

/-- Witness for `trunc_sink_dst`: destination of length 10, input of
length 4 — the destination shrinks to exactly the input. -/
theorem trunc_sink_dst_witness :
    ∃ d', (TruncSink.mk (some [1, 2, 3, 4]) ⟨some [1, 2, 3, 4], []⟩).dst = some d' ∧
      d'.length ≤ ([0, 0, 0, 0, 0, 0, 0, 0, 0, 0] : List Nat).length ∧
      (([1, 2, 3, 4] : List Nat).length < ([0, 0, 0, 0, 0, 0, 0, 0, 0, 0] : List Nat).length →
        d' = [1, 2, 3, 4]) ∧
      (([0, 0, 0, 0, 0, 0, 0, 0, 0, 0] : List Nat).length ≤ ([1, 2, 3, 4] : List Nat).length →
        d' = [1, 2, 3, 4].take ([0, 0, 0, 0, 0, 0, 0, 0, 0, 0] : List Nat).length) :=
  (trunc_sink_dst [0, 0, 0, 0, 0, 0, 0, 0, 0, 0] ⟨none, []⟩ Unit
      (fun _ => Except.ok [])).1 [1, 2, 3, 4]
    ⟨some [1, 2, 3, 4], ⟨some [1, 2, 3, 4], []⟩⟩ rfl

/-- Counterexample to C8 as stated: the string sink with a nil
destination pointer does not return an invalid-argument error — it
dereferences the nil pointer (a panic), and the ByteView sink already
panics at construction. -/
theorem sink_nil_dst_cex :
    StringSink.SetString ⟨none, ⟨none, []⟩⟩ [1] = SetResult.crash ∧
    BvSinkNew none = SetResult.crash :=
  ⟨rfl, rfl⟩

/-- C8 amended: only the allocating-slice and truncating-slice sinks
return an invalid-argument error on a nil destination, leaving the sink
(and so its cached mirror) untouched; the string sink crashes on every
setter, and the ByteView sink crashes already at construction (and on
every setter).  The proto sink's nil handling lives in the external
protobuf library and is not modelled. -/
theorem sink_nil_dst (b s enc : List Nat) (v₀ : ByteView) (μ : Type)
    (marshal : μ → Except String (List Nat)) (m : μ) (hmar : marshal m = .ok enc) :
    (AllocSink.SetBytes ⟨none, v₀⟩ b =
      .err "nil AllocatingByteSliceSink *[]byte dst" ⟨none, v₀⟩) ∧
    (AllocSink.SetString ⟨none, v₀⟩ s =
      .err "nil AllocatingByteSliceSink *[]byte dst" ⟨none, v₀⟩) ∧
    (AllocSink.SetProto marshal ⟨none, v₀⟩ m =
      .err "nil AllocatingByteSliceSink *[]byte dst" ⟨none, v₀⟩) ∧
    (TruncSink.SetBytes ⟨none, v₀⟩ b =
      .err "nil TruncatingByteSliceSink *[]byte dst" ⟨none, v₀⟩) ∧
    (TruncSink.SetString ⟨none, v₀⟩ s =
      .err "nil TruncatingByteSliceSink *[]byte dst" ⟨none, v₀⟩) ∧
    (TruncSink.SetProto marshal ⟨none, v₀⟩ m =
      .err "nil TruncatingByteSliceSink *[]byte dst" ⟨none, v₀⟩) ∧
    (StringSink.SetBytes ⟨none, v₀⟩ b = .crash) ∧
    (StringSink.SetString ⟨none, v₀⟩ s = .crash) ∧
    (StringSink.SetProto marshal ⟨none, v₀⟩ m = .crash) ∧
    (BvSinkNew none = .crash) ∧
    (BvSink.SetBytes ⟨none⟩ b = .crash) ∧
    (BvSink.SetString ⟨none⟩ s = .crash) ∧
    (BvSink.SetProto marshal ⟨none⟩ m = .crash) := by
  refine ⟨rfl, rfl, ?_, rfl, rfl, ?_, rfl, rfl, ?_, rfl, rfl, rfl, ?_⟩
  · simp [AllocSink.SetProto, hmar, AllocSink.setBytesOwned]
  · simp [TruncSink.SetProto, hmar, TruncSink.setBytesOwned]
  · simp [StringSink.SetProto, hmar]
  · simp [BvSink.SetProto, hmar]

/-- Witness for `sink_nil_dst` at concrete inputs. -/
theorem sink_nil_dst_witness :
    AllocSink.SetBytes ⟨none, ⟨none, []⟩⟩ [1] =
      SetResult.err "nil AllocatingByteSliceSink *[]byte dst" ⟨none, ⟨none, []⟩⟩ :=
  (sink_nil_dst [1] [2] [9] ⟨none, []⟩ Unit (fun _ => Except.ok [9]) () rfl).1

end P2p
